import Mathlib

/-!
Verification of the `editorfirst` type-utility library against its
specification.  The library operates purely on TypeScript types, so we work
with a shallow embedding: the inductive `TS.Ty` below models the Schema
Descriptors of spec §3 (Primitive, Record, Sequence, Alternative, Signature,
Tagged-as-intersection, together with the special types `any`, `unknown`,
`never` and literal types), and every type-level operator of the source is
translated to a function over `Ty`.

Modelling conventions, used throughout:
* a Record field is `(name, optional?, readonly?, type)`;
* for the path-walking operators (`hasKey`, `idxVal` and their users) a
  descriptor's keys are its declared Record fields, following the
  descriptor algebra of spec §3; the two path-enumeration operators
  additionally model the apparent members the standard library attaches to
  primitives and sequences (`primCollapse`), because the difference between
  the guarded and the unguarded enumerator is observable only through them;
* dot-paths are modelled as the nonempty list of their `.`-separated
  segments (the source splits the path string at the first dot, so field
  names containing a dot are not addressable — that corner is outside the
  model);
* assignability (`extends` between wrapped types) is the function `subTy`,
  implementing the standard structural rules for the fragment used here.
-/

set_option maxHeartbeats 1000000

namespace TS

/-- Schema Descriptor (spec §3): shallow embedding of the TypeScript types
the library manipulates.  `record` fields are `(name, optional, readonly, type)`. -/
inductive Ty : Type where
  | any : Ty
  | unknown : Ty
  | never : Ty
  | prim : String → Ty
  | strLit : String → Ty
  | boolLit : Bool → Ty
  | record : List (String × Bool × Bool × Ty) → Ty
  | tuple : List Ty → Ty
  | fn : List Ty → Ty → Ty
  | union : List Ty → Ty
  | inter : Ty → Ty → Ty
deriving Repr

/-- A Record field: `(name, optional flag, readonly flag, value descriptor)`. -/
abbrev Fld := String × Bool × Bool × Ty

/-- First field with the given name in a field list (Record field names are
unique, spec §3 invariant). -/
def lookupF : List Fld → String → Option (Bool × Bool × Ty)
  | [], _ => none
  | (n, o, r, t) :: fs, k => if n == k then some (o, r, t) else lookupF fs k

mutual
/-- Membership of `k` in `keyof T`.  For a Record this is field-name lookup;
`keyof` distributes as an intersection over Alternatives and a union over
intersections; every other descriptor has no keys (see module conventions). -/
def hasKey : Ty → String → Bool
  | .record fs, k => (lookupF fs k).isSome
  | .inter a b, k => hasKey a k || hasKey b k
  | .union ms, k => allHasKey ms k
  | _, _ => false
/-- All members of a list have the key (used for `keyof` of an Alternative). -/
def allHasKey : List Ty → String → Bool
  | [], _ => true
  | m :: ms, k => hasKey m k && allHasKey ms k
end

mutual
/-- Indexed access `T[k]`.  On a Record it returns the field's descriptor,
unioned with `undefined` when the field is optional (TypeScript indexed
access on an optional property includes `undefined`); on an intersection it
intersects the sides that have the key; on an Alternative it is the union of
the members' values; `never` otherwise. -/
def idxVal : Ty → String → Ty
  | .record fs, k =>
      match lookupF fs k with
      | some (o, _, t) => if o then .union [t, .prim "undefined"] else t
      | none => .never
  | .inter a b, k =>
      if hasKey a k then
        (if hasKey b k then .inter (idxVal a k) (idxVal b k) else idxVal a k)
      else idxVal b k
  | .union ms, k => .union (idxList ms k)
  | _, _ => .never
/-- Pointwise `idxVal` over a member list. -/
def idxList : List Ty → String → List Ty
  | [], _ => []
  | m :: ms, k => idxVal m k :: idxList ms k
end

/-- Fields of a Record descriptor (empty for every other descriptor). -/
def fieldsOf : Ty → List Fld
  | .record fs => fs
  | _ => []

/-- DeepPick (src/src/deep/index.ts lines 11-17): the path is split at its
first segment; a present segment contributes a one-field Record (the mapped
type `{[P in First]: ...}` is non-homomorphic, so the new field is required
and mutable), an absent segment contributes the empty Record. -/
def DeepPick : Ty → List String → Ty
  | T, [k] => if hasKey T k then .record [(k, false, false, idxVal T k)] else .record []
  | T, k :: rest =>
      if hasKey T k then .record [(k, false, false, DeepPick (idxVal T k) rest)] else .record []
  | _, [] => .record []

/-- DeepValue (src/src/deep/index.ts lines 127-133): resolves a dot-path to
the descriptor at that path, yielding `never` when a segment is absent. -/
def DeepValue : Ty → List String → Ty
  | T, [k] => if hasKey T k then idxVal T k else .never
  | T, k :: rest => if hasKey T k then DeepValue (idxVal T k) rest else .never
  | _, [] => .never

/-- Every segment of the path exists in the descriptor walked so far (the
observation used to state when `DeepValue` degrades to `never`). -/
def resolvesPath : Ty → List String → Bool
  | _, [] => true
  | T, k :: rest => hasKey T k && resolvesPath (idxVal T k) rest

mutual
/-- DeepPartial (src/src/deep/index.ts lines 41-45):
`T extends object ? {[K in keyof T]?: DeepPartial<T[K]>} : T`.
Records, Sequences and Signatures all satisfy `extends object`, so the
recursion enters all of them: Record fields become optional and are
transformed recursively; tuple elements are transformed recursively (the
`?` modifier on tuple elements is not tracked by the model); a Signature has
no keys, so the mapped type collapses it to the empty Record.  The mapped
type distributes over union members and intersection constituents.  `any` is
kept unchanged (the conditional's behaviour on `any` is outside the model). -/
def DeepPartial : Ty → Ty
  | .any => .any
  | .unknown => .unknown
  | .never => .never
  | .prim p => .prim p
  | .strLit s => .strLit s
  | .boolLit x => .boolLit x
  | .record fs => .record (deepPartialF fs)
  | .tuple ts => .tuple (deepPartialL ts)
  | .fn _ _ => .record []
  | .union ms => .union (deepPartialL ms)
  | .inter a b => .inter (DeepPartial a) (DeepPartial b)
/-- Field list action of `DeepPartial`: each field becomes optional. -/
def deepPartialF : List Fld → List Fld
  | [] => []
  | (n, _, r, t) :: fs => (n, true, r, DeepPartial t) :: deepPartialF fs
/-- Elementwise action of `DeepPartial` on a list of descriptors. -/
def deepPartialL : List Ty → List Ty
  | [] => []
  | t :: ts => DeepPartial t :: deepPartialL ts
end

mutual
/-- DeepReadonly (src/src/deep/index.ts lines 69-73): same recursion scheme
as `DeepPartial`, flipping the readonly flag instead of the optional flag. -/
def DeepReadonly : Ty → Ty
  | .any => .any
  | .unknown => .unknown
  | .never => .never
  | .prim p => .prim p
  | .strLit s => .strLit s
  | .boolLit x => .boolLit x
  | .record fs => .record (deepReadonlyF fs)
  | .tuple ts => .tuple (deepReadonlyL ts)
  | .fn _ _ => .record []
  | .union ms => .union (deepReadonlyL ms)
  | .inter a b => .inter (DeepReadonly a) (DeepReadonly b)
/-- Field list action of `DeepReadonly`: each field becomes readonly. -/
def deepReadonlyF : List Fld → List Fld
  | [] => []
  | (n, o, _, t) :: fs => (n, o, true, DeepReadonly t) :: deepReadonlyF fs
/-- Elementwise action of `DeepReadonly` on a list of descriptors. -/
def deepReadonlyL : List Ty → List Ty
  | [] => []
  | t :: ts => DeepReadonly t :: deepReadonlyL ts
end

mutual
/-- Every Record field at every nesting depth is optional (observation
predicate for the corrected statement of the deep flag-flipping claim). -/
def allOpt : Ty → Bool
  | .record fs => allOptF fs
  | .tuple ts => allOptL ts
  | .union ms => allOptL ms
  | .inter a b => allOpt a && allOpt b
  | .fn as1 r => allOptL as1 && allOpt r
  | _ => true
/-- Field-list part of `allOpt`. -/
def allOptF : List Fld → Bool
  | [] => true
  | (_, o, _, t) :: fs => o && allOpt t && allOptF fs
/-- List part of `allOpt`. -/
def allOptL : List Ty → Bool
  | [] => true
  | t :: ts => allOpt t && allOptL ts
end

mutual
/-- Every Record field at every nesting depth is readonly. -/
def allRO : Ty → Bool
  | .record fs => allROF fs
  | .tuple ts => allROL ts
  | .union ms => allROL ms
  | .inter a b => allRO a && allRO b
  | .fn as1 r => allROL as1 && allRO r
  | _ => true
/-- Field-list part of `allRO`. -/
def allROF : List Fld → Bool
  | [] => true
  | (_, _, r, t) :: fs => r && allRO t && allROF fs
/-- List part of `allRO`. -/
def allROL : List Ty → Bool
  | [] => true
  | t :: ts => allRO t && allROL ts
end

/-- Join a prefix and a key with a dot, the `Prefix extends "" ? K :
`${Prefix}.${K}`` pattern of the two path-enumeration operators. -/
def joinPath (pre k : String) : String := if pre == "" then k else pre ++ "." ++ k

mutual
/-- Truth of `X extends object` for a descriptor `X`: Records, Sequences and
Signatures are object types; an Alternative is an object type when all its
members are; an intersection when either side is. -/
def isObjectTy : Ty → Bool
  | .record _ => true
  | .tuple _ => true
  | .fn _ _ => true
  | .union ms => allObjectTy ms
  | .inter a b => isObjectTy a || isObjectTy b
  | .any => true
  | _ => false
/-- All members of a list are object types. -/
def allObjectTy : List Ty → Bool
  | [] => true
  | m :: ms => isObjectTy m && allObjectTy ms
end

/-- The indexed access `P[keyof P]` for a primitive `P`.  A homomorphic
mapped type applied to a primitive returns the primitive itself, so the
trailing `[keyof T]` of the two path-enumeration operators evaluates the
indexed access on the primitive directly: the union of the types of its
apparent members.  The member lists are a representative fragment of the
standard library's interfaces — for `string`, the numeric index type
`string`, `length: number` and the `toString`/`charAt` methods; similarly
for `number` and `boolean`; `null` and `undefined` have no apparent
members, so indexing by their empty `keyof` is `never`.  The theorems below
depend only on which of these results are nonempty, not on the exact member
lists. -/
def primCollapse : String → Ty
  | "string" => .union [.prim "string", .prim "number",
      .fn [] (.prim "string"), .fn [.prim "number"] (.prim "string")]
  | "number" => .union [.fn [] (.prim "string"), .fn [.prim "number"] (.prim "string")]
  | "boolean" => .union [.fn [] (.prim "boolean")]
  | _ => .never

/-- Collect per-key contributions into the result of the trailing
`[keyof T]` indexing: an empty key set means indexing by `never`, which is
`never`; otherwise the union of the contributions. -/
def unionTy : List Ty → Ty
  | [] => .never
  | ts => .union ts

mutual
/-- DeepKeys (src/src/deep/index.ts lines 111-117):
`{[K in keyof T]-?: K extends string ? path | (T[K] extends object ?
DeepKeys<T[K], path> : never) : never}[keyof T]`.
On a Record each declared field contributes its dot-path plus — only when
the field's value passes the `extends object` guard — the recursively
collected result.  On a Sequence the same template runs over the elements
(numeric index keys are string literals, so they pass `K extends string`),
and the sequence's apparent `length` member contributes its numeric type
(the array-method members are elided from the fragment).  On a Primitive
the homomorphic mapped type collapses and the indexing yields
`primCollapse`.  A Signature has no keys, so the result is `never`;
Alternatives, intersections and `any`/`unknown` are outside the modelled
fragment and returned as `never` — no theorem below depends on those
cases. -/
def DeepKeys : Ty → String → Ty
  | .record fs, pre => unionTy (deepKeysF fs pre)
  | .tuple ts, pre => unionTy (deepKeysT ts 0 pre ++ [.prim "number"])
  | .prim p, _ => primCollapse p
  | .strLit _, _ => primCollapse "string"
  | .boolLit _, _ => primCollapse "boolean"
  | _, _ => .never
/-- Per-field contributions of `DeepKeys` over a Record's field list. -/
def deepKeysF : List Fld → String → List Ty
  | [], _ => []
  | (n, _, _, t) :: fs, pre =>
      (Ty.strLit (joinPath pre n) ::
        (if isObjectTy t then [DeepKeys t (joinPath pre n)] else [])) ++ deepKeysF fs pre
/-- Per-element contributions of `DeepKeys` over a Sequence, keyed by the
stringified element index. -/
def deepKeysT : List Ty → Nat → String → List Ty
  | [], _, _ => []
  | t :: ts, i, pre =>
      (Ty.strLit (joinPath pre (toString i)) ::
        (if isObjectTy t then [DeepKeys t (joinPath pre (toString i))] else [])) ++
        deepKeysT ts (i + 1) pre
end

mutual
/-- ObjectPaths (src/unnamed/part_001 lines 49-55): the identical template
to `DeepKeys` except that the recursion into the field value is unguarded —
`K | ObjectPaths<T[K], path>` with no `extends object` test.  The guard's
absence is observable: recursing into a primitive-valued field reaches the
homomorphic collapse `primCollapse`, which is nonempty for `string`,
`number` and `boolean`. -/
def ObjectPaths : Ty → String → Ty
  | .record fs, pre => unionTy (objectPathsF fs pre)
  | .tuple ts, pre => unionTy (objectPathsT ts 0 pre ++ [.prim "number"])
  | .prim p, _ => primCollapse p
  | .strLit _, _ => primCollapse "string"
  | .boolLit _, _ => primCollapse "boolean"
  | _, _ => .never
/-- Per-field contributions of `ObjectPaths` over a Record's field list. -/
def objectPathsF : List Fld → String → List Ty
  | [], _ => []
  | (n, _, _, t) :: fs, pre =>
      (Ty.strLit (joinPath pre n) :: [ObjectPaths t (joinPath pre n)]) ++ objectPathsF fs pre
/-- Per-element contributions of `ObjectPaths` over a Sequence. -/
def objectPathsT : List Ty → Nat → String → List Ty
  | [], _, _ => []
  | t :: ts, i, pre =>
      (Ty.strLit (joinPath pre (toString i)) :: [ObjectPaths t (joinPath pre (toString i))]) ++
        objectPathsT ts (i + 1) pre
end

mutual
/-- Record descriptors whose field values at every depth are again such
Records (bottoming out at Records with no fields): the fragment on which
the guarded and the unguarded path enumerator coincide. -/
def recordTree : Ty → Bool
  | .record fs => recordTreeF fs
  | _ => false
/-- Field-list part of `recordTree`. -/
def recordTreeF : List Fld → Bool
  | [] => true
  | (_, _, _, t) :: fs => recordTree t && recordTreeF fs
end

/-- TuplePush (src/src/function/index.ts line 232): `[...T, V]`. -/
def TuplePush (T : List Ty) (V : Ty) : List Ty := T ++ [V]

/-- TuplePop (src/src/function/index.ts line 242):
`T extends readonly [...infer R, any] ? R : []` — all but the last element,
and `[]` on the empty tuple. -/
def TuplePop (T : List Ty) : List Ty := T.dropLast

/-- Curry (src/src/function/index.ts lines 125-129): peel one parameter at a
time; a Signature with no parameters left becomes `() => Return` (the
pattern `[infer First, ...infer Rest]` does not match the empty tuple), and
a non-Signature input is `never`. -/
def Curry : Ty → Ty
  | .fn (a :: rest) r => .fn [a] (Curry (.fn rest r))
  | .fn [] r => .fn [] r
  | _ => .never

/-- Return descriptor of a Signature (identity on anything else); used to
model applying a curried chain one argument at a time. -/
def retOf : Ty → Ty
  | .fn _ r => r
  | t => t

/-- Apply a chain of Signatures `n` times, taking the return each time. -/
def applyN : Ty → Nat → Ty
  | t, 0 => t
  | t, n + 1 => applyN (retOf t) n

/-- Fields whose name differs from `k` — the field-list action of
`Omit<T, K>` (which is `Pick<T, Exclude<keyof T, K>>`, homomorphic, hence
preserving each kept field's optional/readonly flags and order). -/
def omitFields (fs : List Fld) (k : String) : List Fld :=
  fs.filter (fun f => f.1 != k)

/-- RenameKey (src/unnamed/part_001 lines 9-13):
`To extends keyof T ? T : Omit<T, From> & {[K in To]: T[From]}`.
The mapped type `{[K in To]: T[From]}` is non-homomorphic, so the new field
is required and mutable, and `T[From]` is the indexed access (including
`undefined` when `From` was optional). -/
def RenameKey (T : Ty) (frm dst : String) : Ty :=
  if hasKey T dst then T
  else .inter (.record (omitFields (fieldsOf T) frm)) (.record [(dst, false, false, idxVal T frm)])

/-- Field lookup through Records and intersections of Records, the
observation used to characterise `RenameKey`'s output (an intersection of
object types has the fields of both sides; a field present on both sides
gets the intersected descriptor, is optional only if optional on both and
readonly if readonly on either). -/
def lookupTy : Ty → String → Option (Bool × Bool × Ty)
  | .record fs, k => lookupF fs k
  | .inter a b, k =>
      match lookupTy a k, lookupTy b k with
      | some (o1, r1, t1), some (o2, r2, t2) => some (o1 && o2, r1 || r2, .inter t1 t2)
      | some f, none => some f
      | none, some g => some g
      | none, none => none
  | _, _ => none

mutual
/-- Assignability `A extends B` on descriptors (non-distributive: operands
are compared whole, as in the `[A] extends [B]` idiom).  Standard structural
rules for the fragment: `any`/`unknown` accept everything; `never` is
assignable to everything; `any` is assignable to everything except `never`;
a union is assignable iff every member is, and a type is assignable to a
union iff it is assignable to some member; an intersection target needs both
sides, an intersection source needs one side; string/bool literals widen to
their primitives; Records check target fields against source fields
(readonly is ignored for assignability, an optional source field does not
satisfy a required target field); tuples are compared pointwise; Signatures
compare parameters contravariantly (a source may declare at most as many
parameters as the target) and returns covariantly. -/
def subTy (a b : Ty) : Bool :=
  match a, b with
  | _, .any => true
  | _, .unknown => true
  | .never, _ => true
  | a, .inter c d => subTy a c && subTy a d
  | .union ms, b => subAllL ms b
  | a, .union ms => subAnyR a ms
  | .inter c d, b => subTy c b || subTy d b
  | .any, .never => false
  | .any, _ => true
  | _, .never => false
  | .unknown, _ => false
  | .strLit s, .strLit t => s == t
  | .strLit _, .prim p => p == "string"
  | .boolLit x, .boolLit y => x == y
  | .boolLit _, .prim p => p == "boolean"
  | .prim p, .prim q => p == q
  | .record fs, .record gs => subFieldsAll fs gs
  | .tuple ts, .tuple us => subElems ts us
  | .fn as1 r1, .fn bs1 s1 => subArgs as1 bs1 && subTy r1 s1
  | _, _ => false
termination_by sizeOf a + sizeOf b
/-- Every member of `ms` is assignable to `b` (union source). -/
def subAllL (ms : List Ty) (b : Ty) : Bool :=
  match ms, b with
  | [], _ => true
  | m :: ms, b => subTy m b && subAllL ms b
termination_by sizeOf ms + sizeOf b
/-- `a` is assignable to some member of `ms` (union target). -/
def subAnyR (a : Ty) (ms : List Ty) : Bool :=
  match a, ms with
  | _, [] => false
  | a, m :: ms => subTy a m || subAnyR a ms
termination_by sizeOf a + sizeOf ms
/-- Every target field is satisfied by the source field list. -/
def subFieldsAll (fs gs : List Fld) : Bool :=
  match fs, gs with
  | _, [] => true
  | fs, g :: gs => subFieldOne fs g && subFieldsAll fs gs
termination_by sizeOf fs + sizeOf gs
/-- One target field is satisfied: present with an assignable descriptor
(and not optional-where-required), or absent but optional. -/
def subFieldOne (fs : List Fld) (g : Fld) : Bool :=
  match fs, g with
  | [], (_, go, _, _) => go
  | (m, fo, _, ft) :: fs, (n, go, gr, gt) =>
      if m == n then (!fo || go) && subTy ft gt else subFieldOne fs (n, go, gr, gt)
termination_by sizeOf fs + sizeOf g
/-- Pointwise assignability of tuple elements (same arity required). -/
def subElems (ts us : List Ty) : Bool :=
  match ts, us with
  | [], [] => true
  | t :: ts, u :: us => subTy t u && subElems ts us
  | _, _ => false
termination_by sizeOf ts + sizeOf us
/-- Contravariant parameter-list comparison: every source parameter must
accept the corresponding target parameter, and the source may not declare
more parameters than the target. -/
def subArgs (as2 bs2 : List Ty) : Bool :=
  match as2, bs2 with
  | [], _ => true
  | _ :: _, [] => false
  | a :: as1, b :: bs1 => subTy b a && subArgs as1 bs1
termination_by sizeOf as2 + sizeOf bs2
end

/-- IsAny (src/src/guard/index.ts line 19): `0 extends 1 & T ? true : false`.
This holds exactly when `T` is `any`: intersecting with `any` absorbs to
`any` (which `0` extends), while for any other `T` the intersection `1 & T`
is a subtype of the literal `1`, which `0` does not extend. -/
def IsAny : Ty → Bool
  | .any => true
  | _ => false

/-- IsUnknown (src/src/guard/index.ts line 29):
`[T] extends [unknown] ? (IsAny<T> extends false ? true : false) : false`. -/
def IsUnknown (T : Ty) : Bool :=
  if subTy (.tuple [T]) (.tuple [.unknown]) then (if IsAny T then false else true) else false

mutual
/-- Structural equality of descriptors (used for the normalization a
checker applies to union members: duplicates are removed). -/
def tyBeq (a b : Ty) : Bool :=
  match a, b with
  | .any, .any => true
  | .unknown, .unknown => true
  | .never, .never => true
  | .prim p, .prim q => p == q
  | .strLit s, .strLit t => s == t
  | .boolLit x, .boolLit y => x == y
  | .record fs, .record gs => fldsBeq fs gs
  | .tuple ts, .tuple us => tysBeq ts us
  | .fn as1 r, .fn bs1 s => tysBeq as1 bs1 && tyBeq r s
  | .union ms, .union ns => tysBeq ms ns
  | .inter a1 b1, .inter a2 b2 => tyBeq a1 a2 && tyBeq b1 b2
  | _, _ => false
termination_by sizeOf a + sizeOf b
/-- Pointwise structural equality of descriptor lists. -/
def tysBeq (ts us : List Ty) : Bool :=
  match ts, us with
  | [], [] => true
  | t :: ts, u :: us => tyBeq t u && tysBeq ts us
  | _, _ => false
termination_by sizeOf ts + sizeOf us
/-- Pointwise structural equality of field lists. -/
def fldsBeq (fs gs : List Fld) : Bool :=
  match fs, gs with
  | [], [] => true
  | (m, fo, fr, ft) :: fs, (n, go, gr, gt) :: gs =>
      m == n && fo == go && fr == gr && tyBeq ft gt && fldsBeq fs gs
  | _, _ => false
termination_by sizeOf fs + sizeOf gs
end

/-- Deduplication keeping first occurrences, with an accumulator of members
already seen (union normalization). -/
def dedupAux : List Ty → List Ty → List Ty
  | [], _ => []
  | t :: ts, seen => if seen.any (tyBeq t) then dedupAux ts seen else t :: dedupAux ts (t :: seen)

/-- Normalized member list of a union. -/
def dedupTy (ts : List Ty) : List Ty := dedupAux ts []

/-- Collapse a list of members back into a type the way a checker denotes a
union: empty is `never`, a singleton is the member itself. -/
def normUnion (ts : List Ty) : Ty :=
  match dedupTy ts with
  | [] => .never
  | [t] => t
  | us => .union us

/-- Members a distributive conditional iterates over: the members of a
union, nothing for `never`, and the type itself otherwise. -/
def unionParts : Ty → List Ty
  | .union ms => ms
  | .never => []
  | t => [t]

/-- IsUnion (src/unnamed/part_002 lines 225-231):
`[T] extends [infer U] ? (U extends any ? ([U] extends [T] ? false : true) : never) : false`.
`U` is inferred as `T` and then distributed over its members `u`; each
branch contributes `[u] extends [T] ? false : true` and the branches are
collected back into a (normalized) union; over `never` a distributive
conditional is `never`. -/
def IsUnion (T : Ty) : Ty :=
  normUnion ((unionParts T).map (fun u => .boolLit (!(subTy (.tuple [u]) (.tuple [T])))))

mutual
/-- The descriptor denotes the empty type: `never` itself, an intersection
with an empty side, or a union all of whose members are empty. -/
def isNeverLike : Ty → Bool
  | .never => true
  | .inter a b => isNeverLike a || isNeverLike b
  | .union ms => allNeverLike ms
  | _ => false
/-- All members of a list are empty types. -/
def allNeverLike : List Ty → Bool
  | [] => true
  | m :: ms => isNeverLike m && allNeverLike ms
end

/-! ## Claim theorems -/

/-- C1: the claim (and the source's own doc comment and test) say that
`Curry` of an n-ary Signature is a chain of exactly n unary links whose
innermost link returns the original return descriptor, so that applying the
chain to the n original arguments yields that return descriptor, and that a
zero-arity Signature becomes `() => R` directly.  The code instead appends a
trailing zero-parameter link: on the doc comment's own example
`(a: string, b: number, c: boolean) => string` it produces
`(a) => (b) => (c) => () => string`, and applying the chain to the three
original arguments yields `() => string`, not `string`.  (The zero-arity
part does hold.) -/
theorem C1_curry_appends_trailing_nullary_link :
    Curry (.fn [.prim "string", .prim "number", .prim "boolean"] (.prim "string"))
      = .fn [.prim "string"] (.fn [.prim "number"] (.fn [.prim "boolean"] (.fn [] (.prim "string"))))
    ∧ applyN (Curry (.fn [.prim "string", .prim "number", .prim "boolean"] (.prim "string"))) 3
      = .fn [] (.prim "string")
    ∧ Ty.fn [] (.prim "string") ≠ .prim "string"
    ∧ Curry (.fn [] (.prim "number")) = .fn [] (.prim "number") := by
  have hc : Curry (.fn [.prim "string", .prim "number", .prim "boolean"] (.prim "string"))
      = .fn [.prim "string"] (.fn [.prim "number"] (.fn [.prim "boolean"] (.fn [] (.prim "string")))) := by
    simp [Curry]
  refine ⟨hc, ?_, by simp, by simp [Curry]⟩
  rw [hc]
  rfl

/-- C2 counterexample: when the unresolvable segment is not the first one,
`DeepPick` does not yield the empty record — the resolvable prefix survives
as nested one-field records with the empty record at the failure point.
On `{a: {b: string}}` with path `"a.c"` the result is `{a: {}}`, which has a
field.  (`DeepValue` does yield `never` there.) -/
theorem C2_deepPick_nested_empty_cex :
    DeepPick (.record [("a", false, false, .record [("b", false, false, .prim "string")])]) ["a", "c"]
      = .record [("a", false, false, .record [])]
    ∧ Ty.record [("a", false, false, Ty.record [])] ≠ .record []
    ∧ DeepValue (.record [("a", false, false, .record [("b", false, false, .prim "string")])]) ["a", "c"]
      = .never :=
  ⟨rfl, by simp, rfl⟩

/-- C2 amended: if the first path segment is absent, `DeepPick` yields the
empty record (in general a missing segment yields an empty record at the
point of failure, nested inside the resolved prefix), and `DeepValue` yields
the `never` marker as soon as any segment of the path fails to resolve;
both operations are total, so neither raises. -/
theorem C2_deep_missing_segment (T : Ty) (k : String) (rest : List String) :
    (hasKey T k = false → DeepPick T (k :: rest) = .record [] ∧ DeepValue T (k :: rest) = .never)
    ∧ (resolvesPath T (k :: rest) = false → DeepValue T (k :: rest) = .never) := by
  have hval : ∀ (p : List String) (X : Ty), resolvesPath X p = false → DeepValue X p = .never := by
    intro p
    induction p with
    | nil => intro X h; simp [resolvesPath] at h
    | cons a rest2 ih =>
      intro X h
      simp only [resolvesPath, Bool.and_eq_false_iff] at h
      cases rest2 with
      | nil =>
        rcases h with h | h
        · simp [DeepValue, h]
        · simp [resolvesPath] at h
      | cons b rest3 =>
        rcases h with h | h
        · simp [DeepValue, h]
        · by_cases hk : hasKey X a = true
          · simp [DeepValue, hk, ih _ h]
          · simp [DeepValue, hk]
  constructor
  · intro h
    cases rest with
    | nil => exact ⟨by simp [DeepPick, h], by simp [DeepValue, h]⟩
    | cons b rest2 => exact ⟨by simp [DeepPick, h], by simp [DeepValue, h]⟩
  · intro h
    exact hval _ _ h

/-- C2 witness: the amended statement at the concrete record
`{a: string}` and the absent first segment `"x"`. -/
theorem C2_deep_missing_segment_witness :
    DeepPick (.record [("a", false, false, .prim "string")]) ["x"] = .record []
    ∧ DeepValue (.record [("a", false, false, .prim "string")]) ["x"] = .never :=
  (C2_deep_missing_segment (.record [("a", false, false, .prim "string")]) "x" []).1 rfl

/-- C3: the Sequence round-trip `pop(push(S, x)) = S` holds for every fixed
sequence `S` and element `x`: `TuplePush` appends and `TuplePop` removes the
last element. -/
theorem C3_tuple_pop_push_roundtrip (S : List Ty) (x : Ty) : TuplePop (TuplePush S x) = S := by
  rw [TuplePush, TuplePop, List.dropLast_concat]

/-- C4 counterexample: renaming is claimed to carry the whole
(descriptor, optional, readonly) triple to the new name, but the mapped type
`{[K in To]: T[From]}` is non-homomorphic, so the flags are dropped.
Renaming `a` to `c` in `{readonly a: string; n: number}` produces a `c` that
is not readonly. -/
theorem C4_renameKey_drops_flags_cex :
    lookupTy (RenameKey (.record [("a", false, true, .prim "string"), ("n", false, false, .prim "number")]) "a" "c") "c"
      = some (false, false, .prim "string")
    ∧ (some (false, false, Ty.prim "string") : Option (Bool × Bool × Ty))
      ≠ some (false, true, Ty.prim "string") :=
  ⟨rfl, by simp⟩

/-- C4 amended: if the target name is already a field, `RenameKey` returns
the record unchanged; otherwise the result has the field `frm` removed, a
field `dst` whose descriptor is the indexed access `T[frm]` but whose
optional and readonly flags are reset to `false`, and every other field
unchanged. -/
theorem C4_renameKey_characterization (fs : List Fld) (frm dst : String)
    (hf : hasKey (.record fs) frm = true) :
    (hasKey (.record fs) dst = true → RenameKey (.record fs) frm dst = .record fs)
    ∧ (hasKey (.record fs) dst = false →
        lookupTy (RenameKey (.record fs) frm dst) dst = some (false, false, idxVal (.record fs) frm)
        ∧ lookupTy (RenameKey (.record fs) frm dst) frm = none
        ∧ ∀ k, k ≠ frm → k ≠ dst →
            lookupTy (RenameKey (.record fs) frm dst) k = lookupTy (.record fs) k) := by
  have l1 : ∀ (gs : List Fld) (x y : String), x ≠ y →
      lookupF (omitFields gs y) x = lookupF gs x := by
    intro gs x y hxy
    induction gs with
    | nil => rfl
    | cons f gs ih =>
      obtain ⟨n, o, r, t⟩ := f
      by_cases hny : n = y
      · subst hny
        have h2 : (n == x) = false := beq_eq_false_iff_ne.mpr (Ne.symm hxy)
        simp only [omitFields, List.filter_cons, bne_self_eq_false, Bool.false_eq_true,
          if_false, lookupF, h2] at ih ⊢
        exact ih
      · have h3 : (n != y) = true := bne_iff_ne.mpr hny
        by_cases hnx : n = x
        · subst hnx
          simp [omitFields, List.filter_cons, lookupF, h3]
        · have h4 : (n == x) = false := beq_eq_false_iff_ne.mpr hnx
          simp only [omitFields, List.filter_cons, h3, if_true, lookupF, h4,
            Bool.false_eq_true, if_false] at ih ⊢
          exact ih
  have l2 : ∀ (gs : List Fld) (y : String), lookupF (omitFields gs y) y = none := by
    intro gs y
    induction gs with
    | nil => rfl
    | cons f gs ih =>
      obtain ⟨n, o, r, t⟩ := f
      by_cases hny : n = y
      · subst hny
        simp only [omitFields, List.filter_cons, bne_self_eq_false, Bool.false_eq_true,
          if_false] at ih ⊢
        exact ih
      · have h3 : (n != y) = true := bne_iff_ne.mpr hny
        have h4 : (n == y) = false := beq_eq_false_iff_ne.mpr hny
        simp only [omitFields, List.filter_cons, h3, if_true, lookupF, h4,
          Bool.false_eq_true, if_false] at ih ⊢
        exact ih
  constructor
  · intro ht
    simp [RenameKey, ht]
  · intro ht
    have hfd : frm ≠ dst := by
      intro h
      rw [h] at hf
      rw [hf] at ht
      cases ht
    have hnone : lookupF fs dst = none := by
      cases h2 : lookupF fs dst with
      | none => rfl
      | some v => simp [hasKey, h2] at ht
    have hrw : RenameKey (.record fs) frm dst =
        .inter (.record (omitFields fs frm)) (.record [(dst, false, false, idxVal (.record fs) frm)]) := by
      simp [RenameKey, ht, fieldsOf]
    refine ⟨?_, ?_, ?_⟩
    · rw [hrw]
      have ha : lookupF (omitFields fs frm) dst = none := by
        rw [l1 fs dst frm (Ne.symm hfd), hnone]
      simp [lookupTy, ha, lookupF]
    · rw [hrw]
      have hb : lookupF [(dst, false, false, idxVal (.record fs) frm)] frm = none := by
        have : (dst == frm) = false := beq_eq_false_iff_ne.mpr (Ne.symm hfd)
        simp [lookupF, this]
      simp [lookupTy, l2 fs frm, hb]
    · intro k hk1 hk2
      rw [hrw]
      have hb : lookupF [(dst, false, false, idxVal (.record fs) frm)] k = none := by
        have : (dst == k) = false := beq_eq_false_iff_ne.mpr (Ne.symm hk2)
        simp [lookupF, this]
      have ha : lookupF (omitFields fs frm) k = lookupF fs k := l1 fs k frm hk1
      simp only [lookupTy, ha, hb]
      cases lookupF fs k with
      | none => rfl
      | some v => obtain ⟨o, r, t⟩ := v; rfl

/-- C4 witness: the amended characterization at `{a: number}`, renaming
`a` to `b`. -/
theorem C4_renameKey_characterization_witness :
    lookupTy (RenameKey (.record [("a", false, false, .prim "number")]) "a" "b") "b"
      = some (false, false, .prim "number")
    ∧ lookupTy (RenameKey (.record [("a", false, false, .prim "number")]) "a" "b") "a" = none :=
  ⟨((C4_renameKey_characterization [("a", false, false, .prim "number")] "a" "b" rfl).2 rfl).1,
   ((C4_renameKey_characterization [("a", false, false, .prim "number")] "a" "b" rfl).2 rfl).2.1⟩

/-- C5 counterexample: the claim says non-Record descriptors such as
Sequences are left unchanged in kind and content, but `DeepPartial` recurses
into them (`T extends object` holds for tuples): inside
`{a: [{b: string}]}` the nested record's field `b` also becomes optional. -/
theorem C5_deepPartial_recurses_into_sequences_cex :
    DeepPartial (.record [("a", false, false, .tuple [.record [("b", false, false, .prim "string")]])])
      = .record [("a", true, false, .tuple [.record [("b", true, false, .prim "string")]])]
    ∧ Ty.record [("a", true, false, Ty.tuple [Ty.record [("b", true, false, Ty.prim "string")]])]
      ≠ .record [("a", true, false, .tuple [.record [("b", false, false, .prim "string")]])] :=
  ⟨rfl, by simp⟩

/-- C5 amended: `DeepPartial` (resp. `DeepReadonly`) makes every Record
field at every nesting depth optional (resp. readonly), recursing through
Records, Sequence elements, union members and intersection constituents
(Signatures, having no keys, collapse to the empty Record); a Primitive
itself is left unchanged. -/
theorem C5_deep_flag_flip_all_depths (T : Ty) (s : String) :
    allOpt (DeepPartial T) = true ∧ allRO (DeepReadonly T) = true ∧
      DeepPartial (.prim s) = .prim s ∧ DeepReadonly (.prim s) = .prim s := by
  have main : ∀ (X : Ty), allOpt (DeepPartial X) = true ∧ allRO (DeepReadonly X) = true := by
    apply DeepPartial.induct
      (fun X => allOpt (DeepPartial X) = true ∧ allRO (DeepReadonly X) = true)
      (fun ts => allOptL (deepPartialL ts) = true ∧ allROL (deepReadonlyL ts) = true)
      (fun fs => allOptF (deepPartialF fs) = true ∧ allROF (deepReadonlyF fs) = true)
    · exact ⟨rfl, rfl⟩
    · exact ⟨rfl, rfl⟩
    · exact ⟨rfl, rfl⟩
    · intro p; exact ⟨rfl, rfl⟩
    · intro p; exact ⟨rfl, rfl⟩
    · intro x; exact ⟨rfl, rfl⟩
    · intro fs ih
      simp [DeepPartial, DeepReadonly, allOpt, allRO, ih.1, ih.2]
    · intro ts ih
      simp [DeepPartial, DeepReadonly, allOpt, allRO, ih.1, ih.2]
    · intro as1 r; exact ⟨rfl, rfl⟩
    · intro ms ih
      simp [DeepPartial, DeepReadonly, allOpt, allRO, ih.1, ih.2]
    · intro a b iha ihb
      simp [DeepPartial, DeepReadonly, allOpt, allRO, iha.1, iha.2, ihb.1, ihb.2]
    · exact ⟨rfl, rfl⟩
    · intro n o r t fs ih1 ih2
      simp [deepPartialF, deepReadonlyF, allOptF, allROF, ih1.1, ih1.2, ih2.1, ih2.2]
    · exact ⟨rfl, rfl⟩
    · intro t ts ih1 ih2
      simp [deepPartialL, deepReadonlyL, allOptL, allROL, ih1.1, ih1.2, ih2.1, ih2.2]
  exact ⟨(main T).1, (main T).2, rfl, rfl⟩

/-- C6: the claim (and the source's own doc comment and test comment) say
`IsUnknown<T>` is true only for `unknown`.  But `[T] extends [unknown]`
holds for every `T`, so the code computes `IsUnknown<T> = not IsAny<T>`,
which is true on `string` (and on `never`), contradicting the claim; the
`unknown` and `any` cases do come out as documented. -/
theorem C6_isUnknown_true_on_string :
    IsUnknown (.prim "string") = true
    ∧ IsUnknown .never = true
    ∧ IsUnknown .unknown = true
    ∧ IsUnknown .any = false := by
  refine ⟨?_, ?_, ?_, ?_⟩ <;> simp [IsUnknown, IsAny, subTy, subElems]

/-- C7: the claim (and the source's own doc comment and test comment) say
`IsUnion<T>` is true for a union of two or more distinct members.  The code
distributes the inferred copy `U` over the members and tests
`[U] extends [T]` — a member is always assignable to the whole union, so
every distributed branch yields `false` and `IsUnion<string | number>`
evaluates to `false`. -/
theorem C7_isUnion_false_on_two_member_union :
    IsUnion (.union [.prim "string", .prim "number"]) = .boolLit false := by
  simp only [IsUnion, unionParts, List.map_cons, List.map_nil]
  rw [show subTy (.tuple [.prim "string"]) (.tuple [.union [.prim "string", .prim "number"]]) = true from by
    simp [subTy, subElems, subAnyR]]
  rw [show subTy (.tuple [.prim "number"]) (.tuple [.union [.prim "string", .prim "number"]]) = true from by
    simp [subTy, subElems, subAnyR]]
  simp only [Bool.not_true]
  rw [show normUnion [.boolLit false, .boolLit false] = .boolLit false from by
    simp [normUnion, dedupTy, dedupAux, tyBeq, List.any]]

/-- C10 counterexample: the two path enumerators are not extensionally
equal.  On `{a: string}` the guarded `DeepKeys` yields just `"a"`, while
`ObjectPaths` — whose source has no `extends object` test before its
recursive call — also recurses into `string`: the homomorphic mapped type
passes the primitive through and the trailing indexing yields
`string[keyof string]`, a nonempty union of apparent-member types, so
`ObjectPaths<{a: string}>` strictly exceeds `DeepKeys<{a: string}>`. -/
theorem C10_objectPaths_primitive_leaf_cex :
    DeepKeys (.record [("a", false, false, .prim "string")]) "" = .union [.strLit "a"]
    ∧ ObjectPaths (.record [("a", false, false, .prim "string")]) ""
      = .union [.strLit "a", .union [.prim "string", .prim "number",
          .fn [] (.prim "string"), .fn [.prim "number"] (.prim "string")]]
    ∧ DeepKeys (.record [("a", false, false, .prim "string")]) ""
      ≠ ObjectPaths (.record [("a", false, false, .prim "string")]) "" :=
  ⟨rfl, rfl, by simp [DeepKeys, ObjectPaths, deepKeysF, objectPathsF, unionTy,
    primCollapse, isObjectTy, joinPath]⟩

/-- C10 amended: the two enumerators coincide exactly where the guard never
skips anything with apparent keys — on every Record whose field values at
every depth are themselves Records, `DeepKeys` and `ObjectPaths` agree, for
every prefix. -/
theorem C10_deepKeys_eq_objectPaths_on_record_trees (T : Ty) (pre : String)
    (h : recordTree T = true) : DeepKeys T pre = ObjectPaths T pre := by
  have main : ∀ X, recordTree X = true → ∀ q, DeepKeys X q = ObjectPaths X q := by
    apply recordTree.induct
      (fun X => recordTree X = true → ∀ q, DeepKeys X q = ObjectPaths X q)
      (fun fs => recordTreeF fs = true → ∀ q, deepKeysF fs q = objectPathsF fs q)
    · intro fs ih hx q
      simp only [recordTree] at hx
      simp only [DeepKeys, ObjectPaths, ih hx q]
    · intro t hnotrec hx q
      cases t <;> first | exact (hnotrec _ rfl).elim | simp [recordTree] at hx
    · intro hx q
      rfl
    · intro n o r t fs ih1 ih2 hx q
      simp only [recordTreeF, Bool.and_eq_true] at hx
      have hobj : isObjectTy t = true := by
        cases t
        case record gs => rfl
        all_goals exact Bool.noConfusion hx.1
      simp [deepKeysF, objectPathsF, hobj, ih1 hx.1, ih2 hx.2]
  exact main T h pre

/-- C10 witness: agreement of the two enumerators at the record tree
`{a: {b: {}}}`. -/
theorem C10_deepKeys_eq_objectPaths_on_record_trees_witness :
    DeepKeys (.record [("a", false, false, .record [("b", false, false, .record [])])]) ""
      = ObjectPaths (.record [("a", false, false, .record [("b", false, false, .record [])])]) "" :=
  C10_deepKeys_eq_objectPaths_on_record_trees
    (.record [("a", false, false, .record [("b", false, false, .record [])])]) "" rfl

end TS
